import Mathlib

/-!
Verification of the scene-graph maintenance and render-partitioning core of
the web-manim repository (`src/manim/scene/scene.py` and
`src/manim/renderer/web_renderer.py`).

Mobjects, the family extractor, the iterable helpers and the camera are
external collaborators whose sources are not part of the repository snapshot;
they are modelled from the specification (each such definition carries a
`Modelled from the spec:` doc comment).  Everything else is translated
directly from the Python sources.  Python object identity is modelled by a
numeric identity tag `mid`; identity-based equality and membership become
comparisons of tags.
-/

set_option maxHeartbeats 1600000

namespace WebManim

/-- A node of the containment tree (`manim.mobject.mobject.Mobject`).
`mid` is the identity tag standing for the Python object identity,
`updaters` the attached per-frame update callables (abstracted to tags),
`points` the "has drawable geometry" flag, `z_index` the z index and
`submobjects` the ordered list of children. -/
inductive Mobject where
  | mk (mid : Nat) (updaters : List Nat) (points : Bool) (z_index : Int)
      (submobjects : List Mobject)

/-- The identity tag of a mobject. -/
def Mobject.mid : Mobject → Nat
  | .mk i _ _ _ _ => i

/-- The attached per-frame update callables of the node itself. -/
def Mobject.updaters : Mobject → List Nat
  | .mk _ u _ _ _ => u

/-- The "has drawable geometry" flag (`Mobject.has_points`). -/
def Mobject.has_points : Mobject → Bool
  | .mk _ _ p _ _ => p

/-- The z index. -/
def Mobject.z_index : Mobject → Int
  | .mk _ _ _ z _ => z

/-- The ordered list of children. -/
def Mobject.submobjects : Mobject → List Mobject
  | .mk _ _ _ _ s => s

/-- Modelled from the spec: `getFamily() -> ordered sequence including self`;
a family is "a mobject plus all descendants, in depth-first order"
(the source of `Mobject.get_family` is not in the repository snapshot). -/
def Mobject.get_family : Mobject → List Mobject
  | .mk i u p z subs => .mk i u p z subs :: familyOfList subs
where
  /-- Depth-first families of a list of mobjects, in order. -/
  familyOfList : List Mobject → List Mobject
    | [] => []
    | m :: rest => m.get_family ++ familyOfList rest

/-- The concatenated families of a list of mobjects (helper used throughout:
this is the flattening the family extractor produces before filtering). -/
def flat_family (ms : List Mobject) : List Mobject :=
  ms.flatMap Mobject.get_family

/-- The identity tags of a list of mobjects. -/
def mids (ms : List Mobject) : List Nat :=
  ms.map Mobject.mid

/-- Induction over a forest of mobjects: to prove a property of every list of
mobjects it suffices to prove it for `[]` and, for a cons cell, from the
property of the head's children and of the tail. -/
theorem forest_ind (P : List Mobject → Prop) (h1 : P [])
    (h2 : ∀ (i : Nat) (u : List Nat) (p : Bool) (z : Int)
      (subs t : List Mobject), P subs → P t → P (.mk i u p z subs :: t)) :
    ∀ ms, P ms
  | [] => h1
  | .mk i u p z subs :: t =>
    h2 i u p z subs t (forest_ind P h1 h2 subs) (forest_ind P h1 h2 t)

mutual

/-- Structural equality test; on mobjects built with distinct identity tags it
coincides with identity. -/
def Mobject.beq : Mobject → Mobject → Bool
  | .mk i u p z s, .mk j v q w t =>
    i == j && u == v && p == q && z == w && beqForest s t

/-- Pointwise `Mobject.beq` on lists. -/
def beqForest : List Mobject → List Mobject → Bool
  | [], [] => true
  | a :: as, b :: bs => Mobject.beq a b && beqForest as bs
  | _, _ => false

end

theorem beqForest_iff_of :
    ∀ as : List Mobject,
      (∀ m ∈ as, ∀ b : Mobject, Mobject.beq m b = true ↔ m = b) →
      ∀ bs : List Mobject, beqForest as bs = true ↔ as = bs := by
  intro as
  induction as with
  | nil =>
    intro _ bs
    cases bs <;> simp [beqForest]
  | cons a as ihas =>
    intro hmem bs
    cases bs with
    | nil => simp [beqForest]
    | cons b2 bs2 =>
      have ha := hmem a (by simp) b2
      have has := ihas (fun m hm2 => hmem m (by simp [hm2])) bs2
      simp [beqForest, Bool.and_eq_true, ha, has]

theorem Mobject.beq_iff :
    ∀ a b : Mobject, Mobject.beq a b = true ↔ a = b := by
  have key : ∀ ms : List Mobject,
      ∀ m ∈ ms, ∀ b : Mobject, Mobject.beq m b = true ↔ m = b := by
    intro ms
    induction ms using forest_ind with
    | h1 => intro m hm; cases hm
    | h2 i u p z subs t ihs iht =>
      intro m hm b
      rcases List.mem_cons.mp hm with rfl | hm
      · cases b with
        | mk j v q w bs =>
          simp [Mobject.beq, Bool.and_eq_true, beqForest_iff_of subs ihs bs,
            Mobject.mk.injEq, and_assoc]
      · exact iht m hm b
  intro a b
  exact key [a] a (by simp) b

instance : DecidableEq Mobject :=
  fun a b => decidable_of_iff _ (Mobject.beq_iff a b)

/-- Modelled from the spec: the update callables attached to any member of
`m`'s family (the source of `Mobject.get_family_updaters` is not in the
repository snapshot; §3 gives each node its attached update callables and the
member is dynamic when its family carries one). -/
def Mobject.get_family_updaters (m : Mobject) : List Nat :=
  (flat_family [m]).flatMap Mobject.updaters

/-- Stable insertion of a mobject into a z-sorted list: `m` goes in front of
the first element with a strictly larger z index. -/
def insertZ (m : Mobject) : List Mobject → List Mobject
  | [] => [m]
  | x :: xs => if x.z_index ≤ m.z_index then x :: insertZ m xs else m :: x :: xs

/-- Stable sort by z index (ties keep their original relative order). -/
def sortZ : List Mobject → List Mobject
  | [] => []
  | m :: rest => insertZ m (sortZ rest)

/-- Modelled from the spec: the family extractor (§4.1), whose source
(`manim.utils.family.extract_mobject_family_members`) is not in the
repository snapshot.  It flattens an ordered sequence of top-level mobjects
into the concatenation of their depth-first families, optionally filters to
geometry-bearing members, and optionally applies a stable sort by z index. -/
def extract_mobject_family_members (ms : List Mobject) (use_z_index : Bool)
    (only_those_with_points : Bool) : List Mobject :=
  let flat := flat_family ms
  let filt := if only_those_with_points then flat.filter Mobject.has_points else flat
  if use_z_index then sortZ filt else filt

/-- Modelled from the spec: `manim.utils.iterables.list_update` (source not in
the repository snapshot).  It forms the ordered union of two lists used for
`active ∪ foreground`: the members of the first list not present in the
second, followed by the whole second list, so that foreground members are
"guaranteed to render above all others" (glossary).  Membership is by
identity. -/
def list_update (l1 l2 : List Mobject) : List Mobject :=
  l1.filter (fun e => e.mid ∉ mids l2) ++ l2

/-- Modelled from the spec: `manim.utils.iterables.list_difference_update`
(source not in the repository snapshot): the members of the first list that
do not occur in the second, in order; membership is by identity. -/
def list_difference_update (l1 l2 : List Mobject) : List Mobject :=
  l1.filter (fun e => e.mid ∉ mids l2)

/-- Modelled from the spec: an animation-batch entry `{targetMobject,
isIntroducer}` (§3); the animation classes are not in the repository
snapshot. -/
structure Animation where
  mobject : Option Mobject
  introducer : Bool
deriving DecidableEq

/-- Modelled from the spec: `isIntroducer=true` means the animation brings a
new mobject into the scene rather than mutating an existing one. -/
def Animation.is_introducer (a : Animation) : Bool :=
  a.introducer

/-- The scene state (`Scene.__init__`): the active list `mobjects`, the
`foreground_mobjects` list, the `moving_mobjects` list, and the camera's
`use_z_index` flag (the camera source is not in the repository snapshot, so
the flag consulted by `restructure_mobjects` is modelled as part of the
state). -/
structure Scene where
  mobjects : List Mobject
  foreground_mobjects : List Mobject
  moving_mobjects : List Mobject
  use_z_index : Bool
deriving DecidableEq

/-- The list names `restructure_mobjects` can be pointed at. -/
inductive MobjectListName where
  | mobjects
  | foreground_mobjects
  | moving_mobjects
deriving DecidableEq

/-- `getattr(self, mobject_list_name)`. -/
def Scene.getList (s : Scene) : MobjectListName → List Mobject
  | .mobjects => s.mobjects
  | .foreground_mobjects => s.foreground_mobjects
  | .moving_mobjects => s.moving_mobjects

/-- `setattr(self, mobject_list_name, new_list)`. -/
def Scene.setList (s : Scene) (name : MobjectListName) (l : List Mobject) :
    Scene :=
  match name with
  | .mobjects => { s with mobjects := l }
  | .foreground_mobjects => { s with foreground_mobjects := l }
  | .moving_mobjects => { s with moving_mobjects := l }

/-- The inner worker of `Scene.get_restructured_mobject_list`
(`add_safe_mobjects_from_list`): a top-level element in the removal set is
dropped whole; an element whose family does not meet the removal set is kept
unchanged; otherwise the element is dissolved and the recursion over its
children (against the intersected removal set) is spliced into its place.
The removal set is carried as the list of identity tags. -/
def add_safe_mobjects_from_list : List Mobject → List Nat → List Mobject
  | [], _ => []
  | .mk i u p z subs :: rest, set_to_remove =>
    if i ∈ set_to_remove then
      add_safe_mobjects_from_list rest set_to_remove
    else
      let intersect :=
        set_to_remove.filter (fun t => t ∈ mids (Mobject.get_family (.mk i u p z subs)))
      if intersect.isEmpty then
        Mobject.mk i u p z subs :: add_safe_mobjects_from_list rest set_to_remove
      else
        add_safe_mobjects_from_list subs intersect ++
          add_safe_mobjects_from_list rest set_to_remove
termination_by l _ => sizeOf l

/-- `Scene.get_restructured_mobject_list`. -/
def Scene.get_restructured_mobject_list (mobjects : List Mobject)
    (to_remove : List Mobject) : List Mobject :=
  add_safe_mobjects_from_list mobjects (mids to_remove)

/-- `Scene.restructure_mobjects`: optionally family-expand the removal set,
then rewrite the named list through `get_restructured_mobject_list`. -/
def Scene.restructure_mobjects (s : Scene) (to_remove : List Mobject)
    (mobject_list_name : MobjectListName) (extract_families : Bool) : Scene :=
  let tr :=
    if extract_families then
      extract_mobject_family_members to_remove s.use_z_index false
    else to_remove
  s.setList mobject_list_name
    (Scene.get_restructured_mobject_list (s.getList mobject_list_name) tr)

/-- `Scene.add`: extend the argument list with the foreground mobjects,
restructure the active list against it (with family expansion), append it,
and do the same to `moving_mobjects` when that list is nonempty. -/
def Scene.add (s : Scene) (ms : List Mobject) : Scene :=
  let ms2 := ms ++ s.foreground_mobjects
  let s1 := s.restructure_mobjects ms2 .mobjects true
  let s2 := { s1 with mobjects := s1.mobjects ++ ms2 }
  if s2.moving_mobjects.isEmpty then s2
  else
    let s3 := s2.restructure_mobjects ms2 .moving_mobjects true
    { s3 with moving_mobjects := s3.moving_mobjects ++ ms2 }

/-- `Scene.remove`: restructure `mobjects` and then `foreground_mobjects`
against the given mobjects with `extract_families=False`. -/
def Scene.remove (s : Scene) (ms : List Mobject) : Scene :=
  (s.restructure_mobjects ms .mobjects false).restructure_mobjects ms
    .foreground_mobjects false

/-- `Scene.get_mobject_family_members` (CAIRO renderer branch, the default
configuration of `src/manim/_config/__init__.py`). -/
def Scene.get_mobject_family_members (s : Scene) : List Mobject :=
  extract_mobject_family_members s.mobjects s.use_z_index false

/-- First phase of `replace_in_list`: scan the top-level entries and replace
the first one equal (by identity) to `old_m`, in place. -/
def replaceTop : List Mobject → Mobject → Mobject → Option (List Mobject)
  | [], _, _ => none
  | m :: rest, old_m, new_m =>
    if m.mid = old_m.mid then some (new_m :: rest)
    else (replaceTop rest old_m new_m).map (m :: ·)

mutual

/-- The inner worker of `Scene.replace` (`replace_in_list`): scan the
top-level entries of the list first; only when no top-level entry matches,
recurse into each entry's children in order, stopping at the first
successful replacement.  `none` means nothing was replaced. -/
def replace_in_list (mobj_list : List Mobject) (old_m new_m : Mobject) :
    Option (List Mobject) :=
  match replaceTop mobj_list old_m new_m with
  | some l2 => some l2
  | none => replaceChildren mobj_list old_m new_m
termination_by (sizeOf mobj_list, 1)

/-- Second phase of `replace_in_list`: for each entry in order, try the full
replacement inside its child list; rebuild the entry around the rewritten
children on success. -/
def replaceChildren : List Mobject → Mobject → Mobject → Option (List Mobject)
  | [], _, _ => none
  | .mk i u p z subs :: rest, old_m, new_m =>
    match replace_in_list subs old_m new_m with
    | some subs2 => some (.mk i u p z subs2 :: rest)
    | none =>
      (replaceChildren rest old_m new_m).map (Mobject.mk i u p z subs :: ·)
termination_by l _ _ => (sizeOf l, 0)

end

/-- The error taxonomy the spec assigns to `Scene.replace` (in the source
both cases raise `ValueError`, with distinct messages distinguishing the
null-argument case from the not-found case). -/
inductive ReplaceError where
  | invalidArgument
  | notFound
deriving DecidableEq

/-- `Scene.replace`: reject null arguments, then try the active list and, if
nothing was replaced there, the foreground list; error out when the target is
found in neither. -/
def Scene.replace (s : Scene) (old_mobject new_mobject : Option Mobject) :
    Except ReplaceError Scene :=
  match old_mobject, new_mobject with
  | some old_m, some new_m =>
    match replace_in_list s.mobjects old_m new_m with
    | some l => .ok { s with mobjects := l }
    | none =>
      match replace_in_list s.foreground_mobjects old_m new_m with
      | some l => .ok { s with foreground_mobjects := l }
      | none => .error .notFound
  | _, _ => .error .invalidArgument

/-- The dynamic test of `Scene.get_moving_mobjects` (`update_possibilities`):
the member is a direct target of some animation of the batch, or some member
of its family has an attached updater, or it belongs to the foreground
list. -/
def isMovingMobject (s : Scene) (animation_mobjects : List Nat)
    (mob : Mobject) : Bool :=
  mob.mid ∈ animation_mobjects ||
    0 < mob.get_family_updaters.length ||
    mob.mid ∈ mids s.foreground_mobjects

/-- The scan of `Scene.get_moving_mobjects`: return the suffix of the
flattened family members starting at the first dynamic member. -/
def movingSuffix (s : Scene) (animation_mobjects : List Nat) :
    List Mobject → List Mobject
  | [] => []
  | m :: rest =>
    if isMovingMobject s animation_mobjects m then m :: rest
    else movingSuffix s animation_mobjects rest

/-- `Scene.get_moving_mobjects`. -/
def Scene.get_moving_mobjects (s : Scene) (animations : List Animation) :
    List Mobject :=
  movingSuffix s (mids (animations.filterMap Animation.mobject))
    s.get_mobject_family_members

/-- `Scene.get_moving_and_static_mobjects`. -/
def Scene.get_moving_and_static_mobjects (s : Scene)
    (animations : List Animation) : List Mobject × List Mobject :=
  let all_mobjects := list_update s.mobjects s.foreground_mobjects
  let all_mobject_families :=
    extract_mobject_family_members all_mobjects s.use_z_index true
  let moving_mobjects := s.get_moving_mobjects animations
  let all_moving_mobject_families :=
    extract_mobject_family_members moving_mobjects s.use_z_index false
  let static_mobjects :=
    list_difference_update all_mobject_families all_moving_mobject_families
  (all_moving_mobject_families, static_mobjects)

/-- The loop body of `Scene.add_mobjects_from_animations`: introducer
animations are skipped; a non-null target not yet among the current family
members is added to the scene and its family is appended to the tracking
list. -/
def addFromAnimationsLoop (s : Scene) (curr_mobjects : List Mobject) :
    List Animation → Scene
  | [] => s
  | a :: rest =>
    if a.is_introducer then addFromAnimationsLoop s curr_mobjects rest
    else
      match a.mobject with
      | some mob =>
        if mob.mid ∈ mids curr_mobjects then
          addFromAnimationsLoop s curr_mobjects rest
        else
          addFromAnimationsLoop (s.add [mob])
            (curr_mobjects ++ mob.get_family) rest
      | none => addFromAnimationsLoop s curr_mobjects rest

/-- `Scene.add_mobjects_from_animations`. -/
def Scene.add_mobjects_from_animations (s : Scene)
    (animations : List Animation) : Scene :=
  addFromAnimationsLoop s s.get_mobject_family_members animations

/-- Modelled from the spec: the raster the rendering backend produces — a
blank background, or a base raster with an ordered list of members composited
on top of it (§6: `capture(members, options) -> raster`,
`resetToBackground(raster|none)`).  The camera source is not in the
repository snapshot. -/
inductive Raster where
  | blank
  | composite (base : Raster) (memberTags : List Nat)
deriving DecidableEq

/-- Modelled from the spec: the camera holds the current raster
(`pixel_array`). -/
structure Camera where
  pixel_array : Raster
deriving DecidableEq

/-- Modelled from the spec: `resetToBackground(none)` — start from a blank
background. -/
def Camera.reset (_c : Camera) : Camera :=
  ⟨.blank⟩

/-- Modelled from the spec: `resetToBackground(raster)`. -/
def Camera.set_frame_to_background (_c : Camera) (r : Raster) : Camera :=
  ⟨r⟩

/-- Modelled from the spec: `capture(members, options)` — composite the given
members, in order, over the current raster. -/
def Camera.capture_mobjects (c : Camera) (ms : List Mobject) : Camera :=
  ⟨.composite c.pixel_array (mids ms)⟩

/-- The state of `WebRenderer`: the camera and the cached static raster. -/
structure WebRenderer where
  camera : Camera
  static_image : Option Raster
deriving DecidableEq

/-- `WebRenderer.update_frame`: when the member argument is missing or empty
fall back to `list_update(scene.mobjects, scene.foreground_mobjects)`;
initialize the frame from the cached static raster when one exists, else
reset to blank; then capture the members. -/
def WebRenderer.update_frame (r : WebRenderer) (scene : Scene)
    (mobjects : Option (List Mobject)) : WebRenderer :=
  let ms :=
    match mobjects with
    | none => list_update scene.mobjects scene.foreground_mobjects
    | some [] => list_update scene.mobjects scene.foreground_mobjects
    | some l => l
  let cam :=
    match r.static_image with
    | some img => r.camera.set_frame_to_background img
    | none => r.camera.reset
  { r with camera := cam.capture_mobjects ms }

/-- `WebRenderer.get_frame`. -/
def WebRenderer.get_frame (r : WebRenderer) : Raster :=
  r.camera.pixel_array

/-- `WebRenderer.save_static_frame_data`: clear the cache; when the static
member list is empty return none; otherwise render exactly those members,
store the frame as the cache and return it. -/
def WebRenderer.save_static_frame_data (r : WebRenderer) (scene : Scene)
    (static_mobjects : List Mobject) : WebRenderer × Option Raster :=
  let r1 := { r with static_image := none }
  if static_mobjects.isEmpty then (r1, none)
  else
    let r2 := r1.update_frame scene (some static_mobjects)
    let img := r2.get_frame
    ({ r2 with static_image := some img }, some img)

/-- The scene states reachable from the empty scene by `add`/`remove`
calls. -/
inductive Reachable : Scene → Prop where
  | empty (z : Bool) : Reachable ⟨[], [], [], z⟩
  | add (s : Scene) (ms : List Mobject) : Reachable s → Reachable (s.add ms)
  | remove (s : Scene) (ms : List Mobject) :
      Reachable s → Reachable (s.remove ms)

section HelperLemmas

theorem familyOfList_eq_flat_family :
    ∀ l : List Mobject, Mobject.get_family.familyOfList l = flat_family l := by
  intro l
  induction l with
  | nil => simp [Mobject.get_family.familyOfList, flat_family]
  | cons m rest ih =>
    simp [Mobject.get_family.familyOfList, flat_family, ih]

theorem get_family_eq (m : Mobject) :
    m.get_family = m :: flat_family m.submobjects := by
  cases m with
  | mk i u p z subs =>
    simp [Mobject.get_family, Mobject.submobjects, familyOfList_eq_flat_family]

theorem self_mem_get_family (m : Mobject) : m ∈ m.get_family := by
  rw [get_family_eq]; exact List.mem_cons_self m _

theorem flat_family_append (a b : List Mobject) :
    flat_family (a ++ b) = flat_family a ++ flat_family b := by
  simp [flat_family]

theorem mem_flat_family {x : Mobject} {ms : List Mobject} :
    x ∈ flat_family ms ↔ ∃ m ∈ ms, x ∈ m.get_family := by
  simp [flat_family]

theorem mem_flat_family_of_mem {x : Mobject} {ms : List Mobject}
    (hx : x ∈ ms) : x ∈ flat_family ms :=
  mem_flat_family.mpr ⟨x, hx, self_mem_get_family x⟩

theorem mids_append (a b : List Mobject) :
    mids (a ++ b) = mids a ++ mids b := by
  simp [mids]

theorem mem_mids {i : Nat} {l : List Mobject} :
    i ∈ mids l ↔ ∃ m ∈ l, m.mid = i := by
  simp [mids]

theorem get_family_trans :
    ∀ (m x y : Mobject), x ∈ m.get_family → y ∈ x.get_family →
      y ∈ m.get_family := by
  have key : ∀ ms : List Mobject, ∀ x y : Mobject,
      x ∈ flat_family ms → y ∈ x.get_family → y ∈ flat_family ms := by
    intro ms
    induction ms using forest_ind with
    | h1 => intro x y hx _; simp [flat_family] at hx
    | h2 i u p z subs t ihs iht =>
      intro x y hx hy
      have hsplit : flat_family (Mobject.mk i u p z subs :: t) =
          Mobject.get_family (.mk i u p z subs) ++ flat_family t := by
        simp [flat_family]
      rw [hsplit] at hx ⊢
      rcases List.mem_append.mp hx with hx | hx
      · rw [get_family_eq] at hx
        rcases List.mem_cons.mp hx with rfl | hx
        · exact List.mem_append.mpr (.inl hy)
        · have := ihs x y hx hy
          apply List.mem_append.mpr (.inl _)
          rw [get_family_eq]
          exact List.mem_cons.mpr (.inr this)
      · exact List.mem_append.mpr (.inr (iht x y hx hy))
  intro m x y hx hy
  have : x ∈ flat_family [m] := by simpa [flat_family] using hx
  have := key [m] x y this hy
  simpa [flat_family] using this

theorem mem_insertZ {x m : Mobject} {l : List Mobject} :
    x ∈ insertZ m l ↔ x = m ∨ x ∈ l := by
  induction l with
  | nil => simp [insertZ]
  | cons a as ih =>
    by_cases h : a.z_index ≤ m.z_index
    · simp only [insertZ, if_pos h, List.mem_cons, ih]
      tauto
    · simp only [insertZ, if_neg h, List.mem_cons]

theorem mem_sortZ {x : Mobject} {l : List Mobject} :
    x ∈ sortZ l ↔ x ∈ l := by
  induction l with
  | nil => simp [sortZ]
  | cons a as ih => simp [sortZ, mem_insertZ, ih]

theorem mem_extract {x : Mobject} {ms : List Mobject} {uz op : Bool} :
    x ∈ extract_mobject_family_members ms uz op ↔
      x ∈ flat_family ms ∧ (op = true → x.has_points = true) := by
  cases uz <;> cases op <;>
    simp [extract_mobject_family_members, mem_sortZ, List.mem_filter]

/-- Every member surviving restructuring was already a family member of the
input list. -/
theorem add_safe_subset :
    ∀ (l : List Mobject) (R : List Nat) (x : Mobject),
      x ∈ flat_family (add_safe_mobjects_from_list l R) → x ∈ flat_family l := by
  intro l
  induction l using forest_ind with
  | h1 => intro R x hx; simpa [add_safe_mobjects_from_list] using hx
  | h2 i u p z subs t ihs iht =>
    intro R x hx
    rw [show flat_family (Mobject.mk i u p z subs :: t) =
        Mobject.get_family (.mk i u p z subs) ++ flat_family t by
      simp [flat_family]]
    by_cases hdrop : i ∈ R
    · rw [add_safe_mobjects_from_list, if_pos hdrop] at hx
      exact List.mem_append.mpr (.inr (iht R x hx))
    · rw [add_safe_mobjects_from_list, if_neg hdrop] at hx
      by_cases hint :
          (R.filter
            (fun tg => tg ∈ mids (Mobject.get_family (.mk i u p z subs)))).isEmpty
      · rw [if_pos hint] at hx
        rw [show flat_family (Mobject.mk i u p z subs ::
              add_safe_mobjects_from_list t R) =
            Mobject.get_family (.mk i u p z subs) ++
              flat_family (add_safe_mobjects_from_list t R) by
          simp [flat_family]] at hx
        rcases List.mem_append.mp hx with hx | hx
        · exact List.mem_append.mpr (.inl hx)
        · exact List.mem_append.mpr (.inr (iht R x hx))
      · rw [if_neg hint, flat_family_append] at hx
        rcases List.mem_append.mp hx with hx | hx
        · have hsub := ihs _ x hx
          apply List.mem_append.mpr (.inl _)
          rw [get_family_eq]
          exact List.mem_cons.mpr (.inr hsub)
        · exact List.mem_append.mpr (.inr (iht R x hx))

/-- Restructuring removes every listed identity from the families of the
result: no removed mobject survives at any nesting level. -/
theorem add_safe_removes :
    ∀ (l : List Mobject) (R : List Nat) (x : Mobject),
      x ∈ flat_family (add_safe_mobjects_from_list l R) → x.mid ∉ R := by
  intro l
  induction l using forest_ind with
  | h1 => intro R x hx; simp [add_safe_mobjects_from_list, flat_family] at hx
  | h2 i u p z subs t ihs iht =>
    intro R x hx
    by_cases hdrop : i ∈ R
    · rw [add_safe_mobjects_from_list, if_pos hdrop] at hx
      exact iht R x hx
    · rw [add_safe_mobjects_from_list, if_neg hdrop] at hx
      by_cases hint :
          (R.filter
            (fun tg => tg ∈ mids (Mobject.get_family (.mk i u p z subs)))).isEmpty
      · rw [if_pos hint] at hx
        rw [show flat_family (Mobject.mk i u p z subs ::
              add_safe_mobjects_from_list t R) =
            Mobject.get_family (.mk i u p z subs) ++
              flat_family (add_safe_mobjects_from_list t R) by
          simp [flat_family]] at hx
        rcases List.mem_append.mp hx with hx | hx
        · intro hxR
          have hxm : x.mid ∈ mids (Mobject.get_family (.mk i u p z subs)) :=
            mem_mids.mpr ⟨x, hx, rfl⟩
          have : x.mid ∈ R.filter
              (fun tg => tg ∈ mids (Mobject.get_family (.mk i u p z subs))) :=
            List.mem_filter.mpr ⟨hxR, by simpa using hxm⟩
          rw [List.isEmpty_iff] at hint
          simp [hint] at this
        · exact iht R x hx
      · rw [if_neg hint, flat_family_append] at hx
        rcases List.mem_append.mp hx with hx | hx
        · intro hxR
          have hnotint := ihs _ x hx
          have hxsubs : x ∈ flat_family subs := add_safe_subset _ _ x hx
          have hxfam : x ∈ Mobject.get_family (.mk i u p z subs) := by
            rw [get_family_eq]
            exact List.mem_cons.mpr (.inr hxsubs)
          exact hnotint (List.mem_filter.mpr
            ⟨hxR, by simpa using mem_mids.mpr ⟨x, hxfam, rfl⟩⟩)
        · exact iht R x hx

/-- Decomposition of a suffix of a concatenation. -/
theorem suffix_append_cases {α : Type} {l a b : List α} (h : l <:+ a ++ b) :
    l <:+ b ∨ ∃ s, s <:+ a ∧ l = s ++ b := by
  obtain ⟨t, ht⟩ := h
  rcases List.append_eq_append_iff.mp ht with ⟨a2, ha2, hl⟩ | ⟨c2, hc2, hd⟩
  · right
    exact ⟨a2, ⟨t, ha2.symm⟩, hl⟩
  · left
    exact ⟨c2, hd.symm⟩

/-- The family flattening of a list is family-closed. -/
theorem flat_family_closed {ms : List Mobject} {m x : Mobject}
    (hm : m ∈ flat_family ms) (hx : x ∈ m.get_family) :
    x ∈ flat_family ms := by
  obtain ⟨top, htop, hmtop⟩ := mem_flat_family.mp hm
  exact mem_flat_family.mpr ⟨top, htop, get_family_trans top m x hmtop hx⟩

/-- A suffix of a depth-first family flattening is family-closed: the whole
family of each of its members is still inside the suffix.  This is the
structural fact behind the moving/static partition: cutting the flattened
sequence at any point never separates a member from its descendants. -/
theorem suffix_fam_closed :
    ∀ ms suf : List Mobject, suf <:+ flat_family ms →
      ∀ m ∈ suf, ∀ x ∈ m.get_family, x ∈ suf := by
  intro ms
  induction ms using forest_ind with
  | h1 =>
    intro suf hsuf m hm x _
    have : suf = [] :=
      List.eq_nil_of_suffix_nil (by simpa [flat_family] using hsuf)
    subst this
    cases hm
  | h2 i u p z subs t ihs iht =>
    intro suf hsuf m hm x hx
    have hsplit : flat_family (Mobject.mk i u p z subs :: t) =
        Mobject.get_family (.mk i u p z subs) ++ flat_family t := by
      simp [flat_family]
    rw [hsplit] at hsuf
    rcases suffix_append_cases hsuf with hsuf | ⟨s, hs, rfl⟩
    · exact iht suf hsuf m hm x hx
    · have hs2 := hs
      rw [get_family_eq, Mobject.submobjects] at hs2
      rcases List.suffix_cons_iff.mp hs2 with rfl | hs3
      · -- the suffix is the whole family of the head followed by the tail
        have hwhole : Mobject.mk i u p z subs :: flat_family subs ++
            flat_family t = flat_family (Mobject.mk i u p z subs :: t) := by
          rw [hsplit, get_family_eq, Mobject.submobjects]
        rw [hwhole] at hm ⊢
        exact flat_family_closed hm hx
      · rcases List.mem_append.mp hm with hm | hm
        · exact List.mem_append.mpr (.inl (ihs s hs3 m hm x hx))
        · exact List.mem_append.mpr (.inr (flat_family_closed hm hx))

theorem Scene.remove_eq (s : Scene) (ms : List Mobject) :
    s.remove ms =
      { s with
        mobjects := add_safe_mobjects_from_list s.mobjects (mids ms)
        foreground_mobjects :=
          add_safe_mobjects_from_list s.foreground_mobjects (mids ms) } :=
  rfl

theorem Scene.add_mobjects_eq (s : Scene) (ms : List Mobject) :
    (s.add ms).mobjects =
      add_safe_mobjects_from_list s.mobjects
        (mids (extract_mobject_family_members (ms ++ s.foreground_mobjects)
          s.use_z_index false)) ++ (ms ++ s.foreground_mobjects) := by
  by_cases h : s.moving_mobjects.isEmpty <;>
    simp [Scene.add, Scene.restructure_mobjects, Scene.getList, Scene.setList,
      Scene.get_restructured_mobject_list, h]

theorem Scene.add_foreground_eq (s : Scene) (ms : List Mobject) :
    (s.add ms).foreground_mobjects = s.foreground_mobjects := by
  by_cases h : s.moving_mobjects.isEmpty <;>
    simp [Scene.add, Scene.restructure_mobjects, Scene.getList, Scene.setList,
      Scene.get_restructured_mobject_list, h]

theorem Scene.add_use_z_eq (s : Scene) (ms : List Mobject) :
    (s.add ms).use_z_index = s.use_z_index := by
  by_cases h : s.moving_mobjects.isEmpty <;>
    simp [Scene.add, Scene.restructure_mobjects, Scene.getList, Scene.setList,
      Scene.get_restructured_mobject_list, h]

/-- The moving scan splits the flattened sequence into a prefix of members
that are not dynamic and the returned suffix. -/
theorem movingSuffix_split (s : Scene) (tg : List Nat) :
    ∀ l : List Mobject, ∃ pre,
      l = pre ++ movingSuffix s tg l ∧
        ∀ m ∈ pre, isMovingMobject s tg m = false := by
  intro l
  induction l with
  | nil => exact ⟨[], by simp [movingSuffix]⟩
  | cons m rest ih =>
    by_cases h : isMovingMobject s tg m
    · exact ⟨[], by simp [movingSuffix, h]⟩
    · obtain ⟨pre, hpre, hdyn⟩ := ih
      refine ⟨m :: pre, ?_, ?_⟩
      · simp only [movingSuffix, if_neg h]
        rw [List.cons_append, ← hpre]
      · intro x hx
        rcases List.mem_cons.mp hx with rfl | hx
        · simpa using h
        · exact hdyn x hx

/-- The first dynamic member, if any, heads the returned suffix. -/
theorem movingSuffix_head (s : Scene) (tg : List Nat) :
    ∀ l : List Mobject, movingSuffix s tg l = [] ∨
      ∃ m rest, movingSuffix s tg l = m :: rest ∧
        isMovingMobject s tg m = true := by
  intro l
  induction l with
  | nil => exact .inl rfl
  | cons m rest ih =>
    by_cases h : isMovingMobject s tg m
    · exact .inr ⟨m, rest, by simp [movingSuffix, h], h⟩
    · simpa [movingSuffix, h] using ih

end HelperLemmas

section Examples

/-- Example leaf mobject with drawable geometry, identity tag 1. -/
def ex1 : Mobject := .mk 1 [] true 0 []

/-- Example leaf mobject with drawable geometry, identity tag 2. -/
def ex2 : Mobject := .mk 2 [] true 0 []

/-- Example leaf mobject with drawable geometry, identity tag 3. -/
def ex3 : Mobject := .mk 3 [] true 0 []

/-- Example leaf mobject with drawable geometry, identity tag 4. -/
def ex4 : Mobject := .mk 4 [] true 0 []

/-- Example group `Group(m1, m2, m3)` (groups carry no geometry of their
own). -/
def exGrp123 : Mobject := .mk 10 [] false 0 [ex1, ex2, ex3]

end Examples

section Claim1

/-- **C1, counterexample.**  The claim predicts that restructuring `{m2}` out
of `[Group(m1, m2, m3)]` with family extraction keeps the group with child
list `[m1, m3]`.  The code instead dissolves the group: the result is the
flat list `[m1, m3]`, which is not `[Group(m1, m3)]`. -/
theorem claim1_counterexample :
    ((⟨[exGrp123], [], [], false⟩ : Scene).restructure_mobjects [ex2]
        .mobjects true).mobjects = [ex1, ex3] ∧
      [ex1, ex3] ≠ [Mobject.mk 10 [] false 0 [ex1, ex3]] := by
  constructor
  · simp [Scene.restructure_mobjects, Scene.getList, Scene.setList,
      Scene.get_restructured_mobject_list, extract_mobject_family_members,
      flat_family, Mobject.get_family, Mobject.get_family.familyOfList,
      add_safe_mobjects_from_list, mids, exGrp123, ex1, ex2, ex3,
      Mobject.mid]
  · simp [ex1, ex3]

/-- **C1** (amended).  When a top-level entry `e` of the list is not itself
in the removal set but its family meets it, restructuring does not keep `e`:
it dissolves `e`, splicing the restructuring of `e`'s child list (against the
removal set intersected with `e`'s family) into `e`'s position, with the rest
of the list processed unchanged after it; and no removed identity survives
anywhere in the families of the result. -/
theorem claim1_restructure_dissolves_intersecting_entries
    (i : Nat) (u : List Nat) (p : Bool) (z : Int) (subs rest : List Mobject)
    (R : List Nat) (hnot : i ∉ R)
    (hint : ¬ (R.filter (fun tg =>
      tg ∈ mids (Mobject.get_family (.mk i u p z subs)))).isEmpty = true) :
    add_safe_mobjects_from_list (.mk i u p z subs :: rest) R =
      add_safe_mobjects_from_list subs
        (R.filter (fun tg =>
          tg ∈ mids (Mobject.get_family (.mk i u p z subs)))) ++
        add_safe_mobjects_from_list rest R ∧
    ∀ x ∈ flat_family (add_safe_mobjects_from_list (.mk i u p z subs :: rest)
      R), x.mid ∉ R := by
  refine ⟨?_, fun x hx => add_safe_removes _ R x hx⟩
  rw [add_safe_mobjects_from_list]
  rw [if_neg hnot, if_neg hint]

/-- **C1, witness** for the amended dissolution equation at the concrete
input of the spec example. -/
theorem claim1_witness :
    add_safe_mobjects_from_list (.mk 10 [] false 0 [ex1, ex2, ex3] :: [])
        [2] =
      add_safe_mobjects_from_list [ex1, ex2, ex3]
        ([2].filter (fun tg =>
          tg ∈ mids (Mobject.get_family (.mk 10 [] false 0
            [ex1, ex2, ex3])))) ++
        add_safe_mobjects_from_list [] [2] ∧
    ∀ x ∈ flat_family (add_safe_mobjects_from_list
      (.mk 10 [] false 0 [ex1, ex2, ex3] :: []) [2]), x.mid ∉ [2] :=
  claim1_restructure_dissolves_intersecting_entries 10 [] false 0
    [ex1, ex2, ex3] [] [2] (by simp)
    (by simp [mids, Mobject.get_family, Mobject.get_family.familyOfList,
      ex1, ex2, ex3, Mobject.mid])

end Claim1

section Claim4

/-- **C4, counterexample.**  `remove` does not family-expand the removal
set: removing the container `Group(m1)` from a scene whose active list holds
`m1` directly (but not the group) leaves `m1` in place, although `m1` belongs
to the group's family expansion; under the claimed full expansion the active
list would have become empty. -/
theorem claim4_counterexample :
    ((⟨[ex1], [], [], false⟩ : Scene).remove
        [.mk 10 [] false 0 [ex1]]).mobjects = [ex1] ∧
      ex1.mid ∈ mids (extract_mobject_family_members
        [.mk 10 [] false 0 [ex1]] false false) ∧
      ([ex1] : List Mobject) ≠ [] := by
  refine ⟨?_, ?_, by simp⟩
  · simp [Scene.remove_eq, add_safe_mobjects_from_list, mids,
      Mobject.get_family, Mobject.get_family.familyOfList, ex1, Mobject.mid]
  · simp [extract_mobject_family_members, flat_family, Mobject.get_family,
      Mobject.get_family.familyOfList, mids, ex1, Mobject.mid]

/-- **C4** (amended).  `remove` restructures both the active and the
foreground list against the exact identities of the given mobjects, without
family expansion; a listed top-level entry is dropped together with its whole
subtree (nothing of it is spliced back), and no listed identity survives
anywhere in the families of either resulting list — but descendants of a
listed mobject are not independently matched elsewhere. -/
theorem claim4_remove_without_expansion (s : Scene) (ms : List Mobject) :
    (s.remove ms).mobjects =
        add_safe_mobjects_from_list s.mobjects (mids ms) ∧
      (s.remove ms).foreground_mobjects =
        add_safe_mobjects_from_list s.foreground_mobjects (mids ms) ∧
      (∀ (i : Nat) (u : List Nat) (p : Bool) (z : Int)
        (subs rest : List Mobject) (R : List Nat), i ∈ R →
          add_safe_mobjects_from_list (.mk i u p z subs :: rest) R =
            add_safe_mobjects_from_list rest R) ∧
      (∀ x ∈ flat_family (s.remove ms).mobjects, x.mid ∉ mids ms) ∧
      (∀ x ∈ flat_family (s.remove ms).foreground_mobjects,
        x.mid ∉ mids ms) := by
  refine ⟨by rw [Scene.remove_eq], by rw [Scene.remove_eq], ?_, ?_, ?_⟩
  · intro i u p z subs rest R hiR
    rw [add_safe_mobjects_from_list, if_pos hiR]
  · intro x hx
    rw [Scene.remove_eq] at hx
    exact add_safe_removes _ _ x hx
  · intro x hx
    rw [Scene.remove_eq] at hx
    exact add_safe_removes _ _ x hx

/-- **C4, witness**: concrete instance of the amended equations, with the
whole-subtree drop rule instantiated at a listed container. -/
theorem claim4_witness :
    ((⟨[ex1, ex2], [ex2], [], false⟩ : Scene).remove [ex2]).mobjects =
        add_safe_mobjects_from_list [ex1, ex2] (mids [ex2]) ∧
      add_safe_mobjects_from_list [.mk 5 [] false 0 [ex1]] [5] =
        add_safe_mobjects_from_list [] [5] :=
  ⟨(claim4_remove_without_expansion ⟨[ex1, ex2], [ex2], [], false⟩ [ex2]).1,
    (claim4_remove_without_expansion ⟨[ex1, ex2], [ex2], [], false⟩
      [ex2]).2.2.1 5 [] false 0 [ex1] [] [5] (by simp)⟩

end Claim4

section Claim2

/-- Processing any batch is the same as processing the batch with every
introducer entry deleted: the loop never reads an introducer entry beyond
its flag, whatever else the batch holds. -/
theorem addFromAnimationsLoop_filter_intro (anims : List Animation) :
    ∀ (s : Scene) (curr : List Mobject),
      addFromAnimationsLoop s curr anims =
        addFromAnimationsLoop s curr
          (anims.filter (fun a => !a.is_introducer)) := by
  induction anims with
  | nil => intro s curr; rfl
  | cons a rest ih =>
    intro s curr
    obtain ⟨om, ib⟩ := a
    cases ib
    · -- a non-introducer entry is kept by the filter and both sides take
      -- the same step
      cases om with
      | none => exact ih s curr
      | some mob =>
        show (if mob.mid ∈ mids curr then addFromAnimationsLoop s curr rest
            else addFromAnimationsLoop (s.add [mob])
              (curr ++ mob.get_family) rest) =
          (if mob.mid ∈ mids curr then
            addFromAnimationsLoop s curr
              (rest.filter fun a => !a.is_introducer)
          else addFromAnimationsLoop (s.add [mob])
            (curr ++ mob.get_family)
            (rest.filter fun a => !a.is_introducer))
        by_cases hm : mob.mid ∈ mids curr
        · rw [if_pos hm, if_pos hm]
          exact ih s curr
        · rw [if_neg hm, if_neg hm]
          exact ih (s.add [mob]) (curr ++ mob.get_family)
    · -- an introducer entry is dropped by the filter and skipped by the
      -- loop
      exact ih s curr

/-- **C2, counterexample.**  On the empty scene, a batch holding a single
introducer entry targeting `m1` leaves the active list empty — the
introducer's target is not merged via `add` — while the same entry with
`isIntroducer=false` does get added. -/
theorem claim2_counterexample :
    ((⟨[], [], [], false⟩ : Scene).add_mobjects_from_animations
        [⟨some ex1, true⟩]).mobjects = [] ∧
      ((⟨[], [], [], false⟩ : Scene).add_mobjects_from_animations
        [⟨some ex1, false⟩]).mobjects = [ex1] ∧
      ([] : List Mobject) ≠ [ex1] := by
  refine ⟨?_, ?_, by simp⟩
  · simp [Scene.add_mobjects_from_animations, addFromAnimationsLoop,
      Animation.is_introducer]
  · simp [Scene.add_mobjects_from_animations, addFromAnimationsLoop,
      Animation.is_introducer, Scene.get_mobject_family_members,
      extract_mobject_family_members, flat_family, mids,
      Scene.add_mobjects_eq, add_safe_mobjects_from_list,
      Mobject.get_family, Mobject.get_family.familyOfList, ex1, Mobject.mid]

/-- **C2** (amended).  In every batch, entries with `isIntroducer=true` are
skipped: processing any batch equals processing the batch with every
introducer entry deleted, so introducer targets are never added; at each
step, a non-introducer entry whose non-null target is not yet among the
tracked family members has its target merged into the active list via `add`
(and its family appended to the tracking list) before the remaining entries
are processed, while a non-introducer entry whose target is already tracked
changes nothing; the scene operation runs this loop starting from the
scene's current family members; and being the direct target of any batch
entry — introducer or not — makes a member dynamic. -/
theorem claim2_introducers_skipped :
    (∀ (s : Scene) (curr : List Mobject) (anims : List Animation),
      addFromAnimationsLoop s curr anims =
        addFromAnimationsLoop s curr
          (anims.filter (fun a => !a.is_introducer))) ∧
      (∀ (s : Scene) (curr : List Mobject) (m : Mobject)
          (rest : List Animation), m.mid ∉ mids curr →
        addFromAnimationsLoop s curr
            ((⟨some m, false⟩ : Animation) :: rest) =
          addFromAnimationsLoop (s.add [m]) (curr ++ m.get_family) rest) ∧
      (∀ (s : Scene) (curr : List Mobject) (m : Mobject)
          (rest : List Animation), m.mid ∈ mids curr →
        addFromAnimationsLoop s curr
            ((⟨some m, false⟩ : Animation) :: rest) =
          addFromAnimationsLoop s curr rest) ∧
      (∀ (s : Scene) (anims : List Animation),
        s.add_mobjects_from_animations anims =
          addFromAnimationsLoop s s.get_mobject_family_members anims) ∧
      (∀ (s : Scene) (anims : List Animation) (m : Mobject) (b : Bool),
        (⟨some m, b⟩ : Animation) ∈ anims →
          isMovingMobject s (mids (anims.filterMap Animation.mobject)) m =
            true) := by
  refine ⟨fun s curr anims => addFromAnimationsLoop_filter_intro anims s curr,
    ?_, ?_, fun s anims => rfl, ?_⟩
  · intro s curr m rest hm
    show (if m.mid ∈ mids curr then addFromAnimationsLoop s curr rest
        else addFromAnimationsLoop (s.add [m])
          (curr ++ m.get_family) rest) =
      addFromAnimationsLoop (s.add [m]) (curr ++ m.get_family) rest
    rw [if_neg hm]
  · intro s curr m rest hm
    show (if m.mid ∈ mids curr then addFromAnimationsLoop s curr rest
        else addFromAnimationsLoop (s.add [m])
          (curr ++ m.get_family) rest) =
      addFromAnimationsLoop s curr rest
    rw [if_pos hm]
  · intro s anims m b hmem
    have : m.mid ∈ mids (anims.filterMap Animation.mobject) := by
      apply mem_mids.mpr
      refine ⟨m, ?_, rfl⟩
      exact List.mem_filterMap.mpr ⟨⟨some m, b⟩, hmem, rfl⟩
    simp [isMovingMobject, this]

/-- **C2, witness**: the amended statements at concrete inputs, the
filter-invariance exercised on a mixed batch holding an introducer entry
ahead of a non-introducer one. -/
theorem claim2_witness :
    (addFromAnimationsLoop ⟨[], [], [], false⟩ []
        [⟨some ex1, true⟩, ⟨some ex2, false⟩] =
      addFromAnimationsLoop ⟨[], [], [], false⟩ []
        ([⟨some ex1, true⟩, ⟨some ex2, false⟩].filter
          (fun a => !a.is_introducer))) ∧
      (addFromAnimationsLoop ⟨[], [], [], false⟩ []
          ((⟨some ex2, false⟩ : Animation) :: []) =
        addFromAnimationsLoop ((⟨[], [], [], false⟩ : Scene).add [ex2])
          ([] ++ ex2.get_family) []) ∧
      (addFromAnimationsLoop ⟨[], [], [], false⟩ [ex1]
          ((⟨some ex1, false⟩ : Animation) :: []) =
        addFromAnimationsLoop ⟨[], [], [], false⟩ [ex1] []) ∧
      ((⟨[], [], [], false⟩ : Scene).add_mobjects_from_animations
          [⟨some ex1, true⟩] =
        addFromAnimationsLoop ⟨[], [], [], false⟩
          (⟨[], [], [], false⟩ : Scene).get_mobject_family_members
          [⟨some ex1, true⟩]) ∧
      isMovingMobject (⟨[], [], [], false⟩ : Scene)
        (mids (([⟨some ex1, true⟩] :
          List Animation).filterMap Animation.mobject)) ex1 = true :=
  ⟨claim2_introducers_skipped.1 ⟨[], [], [], false⟩ []
      [⟨some ex1, true⟩, ⟨some ex2, false⟩],
    claim2_introducers_skipped.2.1 ⟨[], [], [], false⟩ [] ex2 []
      (by simp [mids]),
    claim2_introducers_skipped.2.2.1 ⟨[], [], [], false⟩ [ex1] ex1 []
      (by simp [mids, ex1, Mobject.mid]),
    claim2_introducers_skipped.2.2.2.1 ⟨[], [], [], false⟩
      [⟨some ex1, true⟩],
    claim2_introducers_skipped.2.2.2.2 ⟨[], [], [], false⟩
      [⟨some ex1, true⟩] ex1 true (by simp)⟩

end Claim2

section Claim6

/-- Neither `add` nor `remove` ever populates the foreground list, so it
stays empty along any reachable trace. -/
theorem reachable_foreground_nil {s : Scene} (h : Reachable s) :
    s.foreground_mobjects = [] := by
  induction h with
  | empty z => rfl
  | add s2 ms _ ih => rw [Scene.add_foreground_eq]; exact ih
  | remove s2 ms _ ih =>
    rw [Scene.remove_eq] at *
    simp only [ih]
    rw [add_safe_mobjects_from_list]

/-- **C6.**  In every scene state reachable from the empty scene by `add`
and `remove` calls, every member of the foreground list is also a member of
the active list (those calls never populate the foreground list, which
therefore stays empty, so the containment holds). -/
theorem claim6_foreground_subset_active (s : Scene) (h : Reachable s) :
    ∀ m ∈ s.foreground_mobjects, m ∈ s.mobjects := by
  rw [reachable_foreground_nil h]
  intro m hm
  cases hm

/-- **C6, witness** at a concrete reachable state. -/
theorem claim6_witness :
    ((⟨[], [], [], false⟩ : Scene).add [ex1]).foreground_mobjects ⊆
      ((⟨[], [], [], false⟩ : Scene).add [ex1]).mobjects :=
  fun _ hm =>
    claim6_foreground_subset_active _
      (Reachable.add ⟨[], [], [], false⟩ [ex1] (Reachable.empty false)) _ hm

end Claim6

section Claim7

/-- **C7, counterexample.**  With a nonempty foreground list, `add(m)` twice
leaves `m` exactly once but *not* at the final position: the foreground
members are re-appended after it, so the topmost entry is the foreground
mobject, not `m`. -/
theorem claim7_counterexample :
    (((⟨[], [ex2], [], false⟩ : Scene).add [ex1]).add [ex1]).mobjects =
        [ex1, ex2] ∧
      List.getLast? [ex1, ex2] ≠ some ex1 := by
  constructor
  · simp [Scene.add_mobjects_eq, Scene.add_foreground_eq, Scene.add_use_z_eq,
      extract_mobject_family_members, flat_family, Mobject.get_family,
      Mobject.get_family.familyOfList, mids, add_safe_mobjects_from_list,
      ex1, ex2, Mobject.mid]
  · simp [List.getLast?, ex1, ex2]

/-- **C7** (amended).  Provided `m`'s own family carries its identity exactly
once and no foreground member's family carries it, `add(m); add(m)` leaves
exactly one occurrence of `m` in the whole active forest, as the top-level
entry placed immediately before the re-appended foreground block (hence at
the final position exactly when the foreground list is empty). -/
theorem claim7_add_idempotent (s : Scene) (m : Mobject)
    (h1 : (mids m.get_family).count m.mid = 1)
    (h2 : m.mid ∉ mids (flat_family s.foreground_mobjects)) :
    ∃ p, ((s.add [m]).add [m]).mobjects = p ++ m :: s.foreground_mobjects ∧
      (mids (flat_family ((s.add [m]).add [m]).mobjects)).count m.mid =
        1 := by
  have hfg : (s.add [m]).foreground_mobjects = s.foreground_mobjects :=
    Scene.add_foreground_eq s [m]
  have heq := Scene.add_mobjects_eq (s.add [m]) [m]
  rw [hfg] at heq
  set R := mids (extract_mobject_family_members ([m] ++ s.foreground_mobjects)
    (s.add [m]).use_z_index false) with hR
  refine ⟨add_safe_mobjects_from_list (s.add [m]).mobjects R, by
    simpa using heq, ?_⟩
  have hsplit : flat_family (((s.add [m]).add [m]).mobjects) =
      flat_family (add_safe_mobjects_from_list (s.add [m]).mobjects R) ++
        (m.get_family ++ flat_family s.foreground_mobjects) := by
    rw [heq, flat_family_append]
    simp [flat_family]
  rw [hsplit, mids_append, mids_append, List.count_append, List.count_append]
  have hmR : m.mid ∈ R := by
    rw [hR]
    apply mem_mids.mpr
    refine ⟨m, ?_, rfl⟩
    rw [mem_extract]
    exact ⟨mem_flat_family_of_mem (by simp), by simp⟩
  have hcp : (mids (flat_family (add_safe_mobjects_from_list
      ((s.add [m]).mobjects) R))).count m.mid = 0 := by
    rw [List.count_eq_zero]
    intro hmem
    obtain ⟨x, hx, hxid⟩ := mem_mids.mp hmem
    exact add_safe_removes _ _ x hx (hxid ▸ hmR)
  have hcf : (mids (flat_family s.foreground_mobjects)).count m.mid = 0 :=
    List.count_eq_zero.mpr h2
  omega

/-- **C7, witness** at the empty scene and a leaf mobject. -/
theorem claim7_witness :
    ∃ p, (((⟨[], [], [], false⟩ : Scene).add [ex1]).add [ex1]).mobjects =
        p ++ ex1 :: ([] : List Mobject) ∧
      (mids (flat_family ((((⟨[], [], [], false⟩ : Scene).add [ex1]).add
        [ex1]).mobjects))).count ex1.mid = 1 :=
  claim7_add_idempotent ⟨[], [], [], false⟩ ex1
    (by simp [mids, Mobject.get_family, Mobject.get_family.familyOfList, ex1,
      Mobject.mid])
    (by simp [mids, flat_family])

end Claim7

section Claim9

/-- **C9.**  `save_static_frame_data` with an empty static member list only
clears the cache and returns none; with a nonempty list it renders exactly
those members over a blank background (the cache was cleared first), stores
that raster as the cache and returns the same raster. -/
theorem claim9_save_static_frame (r : WebRenderer) (scene : Scene)
    (ms : List Mobject) :
    (ms = [] → r.save_static_frame_data scene ms =
      ({ r with static_image := none }, none)) ∧
    (ms ≠ [] → r.save_static_frame_data scene ms =
      (⟨⟨.composite .blank (mids ms)⟩, some (.composite .blank (mids ms))⟩,
        some (.composite .blank (mids ms)))) := by
  constructor
  · intro h
    subst h
    rfl
  · intro h
    match ms, h with
    | m :: t, _ =>
      simp [WebRenderer.save_static_frame_data, WebRenderer.update_frame,
        WebRenderer.get_frame, Camera.capture_mobjects, Camera.reset]

/-- **C9, witness** for both branches at concrete inputs. -/
theorem claim9_witness :
    (WebRenderer.save_static_frame_data ⟨⟨.blank⟩, some .blank⟩
        ⟨[], [], [], false⟩ [] =
      ({ camera := ⟨.blank⟩, static_image := none }, none)) ∧
    (WebRenderer.save_static_frame_data ⟨⟨.blank⟩, some .blank⟩
        ⟨[], [], [], false⟩ [ex1] =
      (⟨⟨.composite .blank (mids [ex1])⟩,
          some (.composite .blank (mids [ex1]))⟩,
        some (.composite .blank (mids [ex1])))) :=
  ⟨(claim9_save_static_frame ⟨⟨.blank⟩, some .blank⟩ ⟨[], [], [], false⟩
      []).1 rfl,
    (claim9_save_static_frame ⟨⟨.blank⟩, some .blank⟩ ⟨[], [], [], false⟩
      [ex1]).2 (by simp)⟩

end Claim9

section Claim10

/-- The fallback ordering asserted by the claim, written out for comparison:
the active list first, then the foreground members not already present. -/
def claimOrderFallback (l1 l2 : List Mobject) : List Mobject :=
  l1 ++ l2.filter (fun e => e.mid ∉ mids l1)

/-- **C10, counterexample.**  When a mobject sits in both lists, the
fallback renders the active members *not in foreground* first and the whole
foreground block last (foreground stays topmost); the claim's ordering —
active list first, then missing foreground members — would paint the shared
member at its active position instead, a different composite. -/
theorem claim10_counterexample :
    (WebRenderer.update_frame ⟨⟨.blank⟩, none⟩ ⟨[ex2, ex1], [ex2], [], false⟩
        none).camera.pixel_array = .composite .blank [1, 2] ∧
      Raster.composite .blank [1, 2] ≠
        .composite .blank (mids (claimOrderFallback [ex2, ex1] [ex2])) := by
  constructor
  · simp [WebRenderer.update_frame, Camera.capture_mobjects, Camera.reset,
      list_update, mids, ex1, ex2, Mobject.mid]
  · simp [claimOrderFallback, mids, ex1, ex2, Mobject.mid]

/-- **C10** (amended).  `update_frame` with a missing or empty member
argument does not render nothing: it renders the fallback
`list_update(active, foreground)` — the active members not also in
foreground, followed by the whole foreground block — on top of the cached
static raster when one exists, else on a blank background; the cache itself
is left untouched. -/
theorem claim10_update_frame_fallback (r : WebRenderer) (scene : Scene)
    (mobjects : Option (List Mobject))
    (h : mobjects = none ∨ mobjects = some []) :
    (r.update_frame scene mobjects).camera.pixel_array =
        .composite
          (match r.static_image with
            | some img => img
            | none => .blank)
          (mids (list_update scene.mobjects scene.foreground_mobjects)) ∧
      (r.update_frame scene mobjects).static_image = r.static_image := by
  rcases h with rfl | rfl <;> cases hs : r.static_image <;>
    simp [WebRenderer.update_frame, Camera.capture_mobjects, Camera.reset,
      Camera.set_frame_to_background, hs]

/-- **C10, witness** at a scene with distinct active and foreground
content and no cached raster. -/
theorem claim10_witness :
    (WebRenderer.update_frame ⟨⟨.blank⟩, none⟩ ⟨[ex1], [ex2], [], false⟩
        none).camera.pixel_array =
      .composite
        (match (none : Option Raster) with
          | some img => img
          | none => .blank)
        (mids (list_update [ex1] [ex2])) ∧
      (WebRenderer.update_frame ⟨⟨.blank⟩, none⟩ ⟨[ex1], [ex2], [], false⟩
        none).static_image = (none : Option Raster) :=
  claim10_update_frame_fallback ⟨⟨.blank⟩, none⟩ ⟨[ex1], [ex2], [], false⟩
    none (.inl rfl)

end Claim10

section Claim5

/-- **C5, counterexample.**  With a group (no drawable geometry of its own)
ahead of the animated leaf, the static half is not the whole prefix before
the first dynamic member: the group is filtered out by the geometry filter,
so static is `[m1, m2]` where the claim predicts `[Group, m1, m2]`. -/
theorem claim5_counterexample :
    Scene.get_moving_and_static_mobjects
        ⟨[.mk 10 [] false 0 [ex1, ex2], ex3], [], [], false⟩
        [⟨some ex3, false⟩] = ([ex3], [ex1, ex2]) ∧
      (([ex3], [ex1, ex2]) :
          List Mobject × List Mobject) ≠
        ([ex3], [.mk 10 [] false 0 [ex1, ex2], ex1, ex2]) := by
  constructor
  · simp [Scene.get_moving_and_static_mobjects, Scene.get_moving_mobjects,
      Scene.get_mobject_family_members, extract_mobject_family_members,
      list_update, list_difference_update, flat_family, Mobject.get_family,
      Mobject.get_family.familyOfList, mids, movingSuffix, isMovingMobject,
      Mobject.get_family_updaters, Mobject.updaters, Mobject.has_points,
      Mobject.mid, ex1, ex2, ex3]
  · simp [ex1]

/-- **C5** (amended).  With the z-index flag off, an empty foreground list
and duplicate-free identities, `get_moving_and_static_mobjects` splits the
flattened family sequence at the first dynamic member: every member of the
prefix is non-dynamic, the suffix (when nonempty) starts with a dynamic
member, the moving half is the family-flattening of that suffix (re-listing
each suffix member with its family), and the static half is exactly the
geometry-bearing members of the prefix, in order.  When no member is
dynamic the suffix is empty, so moving is empty and static is the whole
geometry-filtered sequence. -/
theorem claim5_moving_static_partition (s : Scene) (anims : List Animation)
    (hfg : s.foreground_mobjects = []) (hz : s.use_z_index = false)
    (hnd : (mids (flat_family s.mobjects)).Nodup) :
    ∃ pre,
      flat_family s.mobjects = pre ++ s.get_moving_mobjects anims ∧
      (∀ m ∈ pre,
        isMovingMobject s (mids (anims.filterMap Animation.mobject)) m =
          false) ∧
      (s.get_moving_mobjects anims = [] ∨
        ∃ m rest, s.get_moving_mobjects anims = m :: rest ∧
          isMovingMobject s (mids (anims.filterMap Animation.mobject)) m =
            true) ∧
      s.get_moving_and_static_mobjects anims =
        (flat_family (s.get_moving_mobjects anims),
          pre.filter Mobject.has_points) := by
  have hget : s.get_mobject_family_members = flat_family s.mobjects := by
    simp [Scene.get_mobject_family_members, extract_mobject_family_members,
      hz]
  set tg := mids (anims.filterMap Animation.mobject) with htg
  have hmovdef : s.get_moving_mobjects anims =
      movingSuffix s tg (flat_family s.mobjects) := by
    rw [Scene.get_moving_mobjects, hget]
  set mov := movingSuffix s tg (flat_family s.mobjects) with hmov
  obtain ⟨pre, hsplit, hpre⟩ := movingSuffix_split s tg (flat_family s.mobjects)
  refine ⟨pre, by rw [hmovdef]; exact hsplit, hpre, ?_, ?_⟩
  · rw [hmovdef]
    exact movingSuffix_head s tg (flat_family s.mobjects)
  · have hall : list_update s.mobjects s.foreground_mobjects = s.mobjects := by
      simp [list_update, hfg, mids]
    have hsuffix : mov <:+ flat_family s.mobjects := ⟨pre, hsplit.symm⟩
    have hmovmem : ∀ y ∈ flat_family mov, y ∈ mov := by
      intro y hy
      obtain ⟨m, hmmem, hyfam⟩ := mem_flat_family.mp hy
      exact suffix_fam_closed s.mobjects mov hsuffix m hmmem y hyfam
    have hdisj : ∀ x ∈ pre, x.mid ∉ mids (flat_family mov) := by
      intro x hx hxin
      obtain ⟨y, hy, hyid⟩ := mem_mids.mp hxin
      have hymov : y ∈ mov := hmovmem y hy
      have hdis : (mids pre).Disjoint (mids mov) := by
        apply List.disjoint_of_nodup_append
        rw [← mids_append, ← hsplit]
        exact hnd
      exact hdis (mem_mids.mpr ⟨x, hx, rfl⟩) (hyid ▸ mem_mids.mpr ⟨y, hymov, rfl⟩)
    have hstat :
        list_difference_update
          ((flat_family s.mobjects).filter Mobject.has_points)
          (flat_family mov) = pre.filter Mobject.has_points := by
      rw [hsplit, List.filter_append, list_difference_update,
        List.filter_append]
      have h1 : (pre.filter Mobject.has_points).filter
          (fun e => decide (e.mid ∉ mids (flat_family mov))) =
          pre.filter Mobject.has_points := by
        apply List.filter_eq_self.mpr
        intro a ha
        simp only [decide_eq_true_eq]
        exact hdisj a (List.mem_of_mem_filter ha)
      have h2 : (mov.filter Mobject.has_points).filter
          (fun e => decide (e.mid ∉ mids (flat_family mov))) = [] := by
        apply List.filter_eq_nil_iff.mpr
        intro a ha
        simp only [decide_eq_true_eq, Decidable.not_not]
        exact mem_mids.mpr ⟨a, mem_flat_family_of_mem
          (List.mem_of_mem_filter ha), rfl⟩
      rw [h1, h2, List.append_nil]
    rw [Scene.get_moving_and_static_mobjects]
    simp only [← hmovdef] at hall ⊢
    rw [hall, hz]
    simp only [extract_mobject_family_members, if_neg Bool.false_ne_true,
      Bool.false_eq_true, if_true, if_false]
    rw [hmovdef, hstat]

/-- **C5, witness**: the spec's own example — four leaves `[a,b,c,d]` where
only `c` carries an updater — yields moving `[c,d]` and static `[a,b]`. -/
theorem claim5_witness :
    ∃ pre,
      flat_family ([ex1, ex2, .mk 3 [7] true 0 [], ex4] : List Mobject) =
        pre ++ Scene.get_moving_mobjects
          ⟨[ex1, ex2, .mk 3 [7] true 0 [], ex4], [], [], false⟩ [] ∧
      (∀ m ∈ pre,
        isMovingMobject ⟨[ex1, ex2, .mk 3 [7] true 0 [], ex4], [], [], false⟩
          (mids (([] : List Animation).filterMap Animation.mobject)) m =
          false) ∧
      (Scene.get_moving_mobjects
          ⟨[ex1, ex2, .mk 3 [7] true 0 [], ex4], [], [], false⟩ [] = [] ∨
        ∃ m rest, Scene.get_moving_mobjects
            ⟨[ex1, ex2, .mk 3 [7] true 0 [], ex4], [], [], false⟩ [] =
            m :: rest ∧
          isMovingMobject
            ⟨[ex1, ex2, .mk 3 [7] true 0 [], ex4], [], [], false⟩
            (mids (([] : List Animation).filterMap Animation.mobject)) m =
            true) ∧
      Scene.get_moving_and_static_mobjects
          ⟨[ex1, ex2, .mk 3 [7] true 0 [], ex4], [], [], false⟩ [] =
        (flat_family (Scene.get_moving_mobjects
            ⟨[ex1, ex2, .mk 3 [7] true 0 [], ex4], [], [], false⟩ []),
          pre.filter Mobject.has_points) :=
  claim5_moving_static_partition
    ⟨[ex1, ex2, .mk 3 [7] true 0 [], ex4], [], [], false⟩ [] rfl rfl
    (by simp [mids, flat_family, Mobject.get_family,
      Mobject.get_family.familyOfList, ex1, ex2, ex4, Mobject.mid])

/-- **C5, example check**: on the same input the computed partition is
moving `[c, d]`, static `[a, b]`. -/
theorem claim5_example_value :
    Scene.get_moving_and_static_mobjects
        ⟨[ex1, ex2, .mk 3 [7] true 0 [], ex4], [], [], false⟩ [] =
      ([.mk 3 [7] true 0 [], ex4], [ex1, ex2]) := by
  simp [Scene.get_moving_and_static_mobjects, Scene.get_moving_mobjects,
    Scene.get_mobject_family_members, extract_mobject_family_members,
    list_update, list_difference_update, flat_family, Mobject.get_family,
    Mobject.get_family.familyOfList, mids, movingSuffix, isMovingMobject,
    Mobject.get_family_updaters, Mobject.updaters, Mobject.has_points,
    Mobject.mid, ex1, ex2, ex3, ex4]

end Claim5

section ReplacePaths

/-- The node of a forest addressed by a nonempty path of indices: the last
index selects inside a child list, every earlier index descends into the
submobjects of the selected entry. -/
def getPath : List Mobject → List Nat → Option Mobject
  | _, [] => none
  | l, [i] => l[i]?
  | l, i :: j :: rest =>
    match l[i]? with
    | some m => getPath m.submobjects (j :: rest)
    | none => none

/-- Write `nm` at the position addressed by the path, leaving every other
node of the forest unchanged. -/
def setPath : List Mobject → List Nat → Mobject → List Mobject
  | l, [], _ => l
  | l, [i], nm => l.set i nm
  | l, i :: j :: rest, nm =>
    match l[i]? with
    | some (.mk a u p z subs) =>
      l.set i (.mk a u p z (setPath subs (j :: rest) nm))
    | none => l

theorem getPath_cons_succ (x : Mobject) (t : List Mobject) (j : Nat)
    (js : List Nat) : getPath (x :: t) ((j + 1) :: js) = getPath t (j :: js) := by
  cases js with
  | nil => simp [getPath]
  | cons k ks => simp [getPath]

theorem setPath_cons_succ (x : Mobject) (t : List Mobject) (j : Nat)
    (js : List Nat) (nm : Mobject) :
    setPath (x :: t) ((j + 1) :: js) nm = x :: setPath t (j :: js) nm := by
  cases js with
  | nil => simp [setPath]
  | cons k ks =>
    cases ht : t[j]? with
    | none => simp [setPath, ht]
    | some m => cases m with
      | mk a u p z subs => simp [setPath, ht]

theorem replaceTop_some :
    ∀ (l : List Mobject) (o n l' : _), replaceTop l o n = some l' →
      ∃ i m', l[i]? = some m' ∧ m'.mid = o.mid ∧ l' = l.set i n := by
  intro l
  induction l with
  | nil => intro o n l' h; simp [replaceTop] at h
  | cons m rest ih =>
    intro o n l' h
    rw [replaceTop] at h
    by_cases hm : m.mid = o.mid
    · rw [if_pos hm] at h
      refine ⟨0, m, by simp, hm, ?_⟩
      simp at h
      simp [← h]
    · rw [if_neg hm] at h
      cases hr : replaceTop rest o n with
      | none => rw [hr] at h; simp at h
      | some r2 =>
        rw [hr] at h
        simp only [Option.map_some'] at h
        obtain rfl := (Option.some_inj.mp h).symm
        obtain ⟨i, m', hg, hid, hset⟩ := ih o n r2 hr
        exact ⟨i + 1, m', by simpa using hg, hid, by simp [hset]⟩

theorem replaceTop_none_iff (o n : Mobject) :
    ∀ l : List Mobject, replaceTop l o n = none ↔ ∀ x ∈ l, x.mid ≠ o.mid := by
  intro l
  induction l with
  | nil => simp [replaceTop]
  | cons m rest ih =>
    rw [replaceTop]
    by_cases hm : m.mid = o.mid
    · rw [if_pos hm]
      constructor
      · intro h; cases h
      · intro hall
        exact absurd hm (hall m (by simp))
    · rw [if_neg hm]
      simp [Option.map_eq_none', ih, hm]

theorem mids_flat_cons (m : Mobject) (t : List Mobject) (i : Nat) :
    i ∈ mids (flat_family (m :: t)) ↔
      (m.mid = i ∨ i ∈ mids (flat_family m.submobjects)) ∨
        i ∈ mids (flat_family t) := by
  have h1 : flat_family (m :: t) = m.get_family ++ flat_family t := by
    simp [flat_family]
  rw [h1, mids_append, get_family_eq]
  simp [mids, eq_comm, or_assoc]

theorem replace_in_list_none_of (l : List Mobject) (o n : Mobject)
    (hC : replaceChildren l o n = none ↔
      ∀ m ∈ l, o.mid ∉ mids (flat_family m.submobjects)) :
    replace_in_list l o n = none ↔ o.mid ∉ mids (flat_family l) := by
  rw [replace_in_list]
  cases ht : replaceTop l o n with
  | some l2 =>
    simp only [reduceCtorEq, false_iff, Decidable.not_not]
    obtain ⟨i, m', hg, hid, _⟩ := replaceTop_some l o n l2 ht
    have hmem : m' ∈ l := by
      exact List.getElem?_mem hg
    exact mem_mids.mpr ⟨m', mem_flat_family_of_mem hmem, hid⟩
  | none =>
    rw [replaceTop_none_iff] at ht
    rw [hC]
    constructor
    · intro hall hin
      obtain ⟨x, hx, hxid⟩ := mem_mids.mp hin
      obtain ⟨m, hm, hxfam⟩ := mem_flat_family.mp hx
      rw [get_family_eq] at hxfam
      rcases List.mem_cons.mp hxfam with rfl | hxfam
      · exact ht x hm hxid
      · exact hall m hm (mem_mids.mpr ⟨x, hxfam, hxid⟩)
    · intro hnot m hm hin
      obtain ⟨x, hx, hxid⟩ := mem_mids.mp hin
      apply hnot
      apply mem_mids.mpr
      refine ⟨x, ?_, hxid⟩
      apply mem_flat_family.mpr ⟨m, hm, ?_⟩
      rw [get_family_eq]
      exact List.mem_cons.mpr (.inr hx)

theorem replaceChildren_none_iff (o n : Mobject) :
    ∀ l : List Mobject, replaceChildren l o n = none ↔
      ∀ m ∈ l, o.mid ∉ mids (flat_family m.submobjects) := by
  intro l
  induction l using forest_ind with
  | h1 => simp [replaceChildren]
  | h2 i u p z subs t ihs iht =>
    rw [replaceChildren]
    cases hin : replace_in_list subs o n with
    | some s2 =>
      simp only [reduceCtorEq, false_iff, not_forall]
      refine ⟨.mk i u p z subs, by simp, ?_⟩
      simp only [Mobject.submobjects, Decidable.not_not]
      by_contra hnot
      rw [← (replace_in_list_none_of subs o n ihs)] at hnot
      simp [hin] at hnot
    | none =>
      have hsub : o.mid ∉ mids (flat_family subs) :=
        (replace_in_list_none_of subs o n ihs).mp hin
      simp only [Option.map_eq_none', iht]
      constructor
      · intro hall m hm
        rcases List.mem_cons.mp hm with rfl | hm
        · simpa [Mobject.submobjects] using hsub
        · exact hall m hm
      · intro hall m hm
        exact hall m (List.mem_cons.mpr (.inr hm))

theorem replace_in_list_none_iff (l : List Mobject) (o n : Mobject) :
    replace_in_list l o n = none ↔ o.mid ∉ mids (flat_family l) :=
  replace_in_list_none_of l o n (replaceChildren_none_iff o n l)

theorem replace_in_list_some_path_of (l : List Mobject) (o n : Mobject)
    (hC : ∀ l', replaceChildren l o n = some l' →
      ∃ pth m', pth ≠ [] ∧ getPath l pth = some m' ∧ m'.mid = o.mid ∧
        l' = setPath l pth n) :
    ∀ l', replace_in_list l o n = some l' →
      ∃ pth m', pth ≠ [] ∧ getPath l pth = some m' ∧ m'.mid = o.mid ∧
        l' = setPath l pth n := by
  intro l' h
  rw [replace_in_list] at h
  cases ht : replaceTop l o n with
  | some l2 =>
    rw [ht] at h
    obtain rfl := Option.some_inj.mp h
    obtain ⟨i, m', hg, hid, hset⟩ := replaceTop_some l o n l2 ht
    exact ⟨[i], m', by simp, by simpa [getPath] using hg, hid, by
      simpa [setPath] using hset⟩
  | none =>
    rw [ht] at h
    exact hC l' h

theorem replaceChildren_some_path (o n : Mobject) :
    ∀ l : List Mobject, ∀ l',
      replaceChildren l o n = some l' →
        ∃ pth m', pth ≠ [] ∧ getPath l pth = some m' ∧ m'.mid = o.mid ∧
          l' = setPath l pth n := by
  intro l
  induction l using forest_ind with
  | h1 => intro l' h; simp [replaceChildren] at h
  | h2 i u p z subs t ihs iht =>
    intro l' h
    rw [replaceChildren] at h
    cases hin : replace_in_list subs o n with
    | some s2 =>
      rw [hin] at h
      obtain rfl := Option.some_inj.mp h
      obtain ⟨pth, m', hne, hget, hid, hset⟩ :=
        replace_in_list_some_path_of subs o n ihs s2 hin
      match pth, hne with
      | q :: qs, _ =>
        refine ⟨0 :: q :: qs, m', by simp, ?_, hid, ?_⟩
        · simpa [getPath, Mobject.submobjects] using hget
        · simp [setPath, ← hset]
    | none =>
      rw [hin] at h
      cases hrest : replaceChildren t o n with
      | none => rw [hrest] at h; simp at h
      | some t2 =>
        rw [hrest] at h
        simp only [Option.map_some'] at h
        obtain rfl := (Option.some_inj.mp h).symm
        obtain ⟨pth, m', hne, hget, hid, hset⟩ := iht t2 hrest
        match pth, hne with
        | j :: js, _ =>
          refine ⟨(j + 1) :: js, m', by simp, ?_, hid, ?_⟩
          · rw [getPath_cons_succ]
            exact hget
          · rw [setPath_cons_succ, ← hset]

theorem replace_in_list_some_path (l : List Mobject) (o n : Mobject) :
    ∀ l', replace_in_list l o n = some l' →
      ∃ pth m', pth ≠ [] ∧ getPath l pth = some m' ∧ m'.mid = o.mid ∧
        l' = setPath l pth n :=
  replace_in_list_some_path_of l o n (replaceChildren_some_path o n l)

end ReplacePaths

section Claim3

/-- Modelled from the claim's words, for comparison only: replacement
attempted at exactly depth `d` — depth 0 scans the given list's entries in
order, depth `d+1` descends one level into each entry's children, entries in
order. -/
def replaceAtDepth :
    Nat → List Mobject → Mobject → Mobject → Option (List Mobject)
  | 0, l, o, n => replaceTop l o n
  | _ + 1, [], _, _ => none
  | d + 1, .mk i u p z subs :: rest, o, n =>
    match replaceAtDepth d subs o n with
    | some subs2 => some (.mk i u p z subs2 :: rest)
    | none =>
      (replaceAtDepth (d + 1) rest o n).map (Mobject.mk i u p z subs :: ·)
termination_by d l _ _ => (d, sizeOf l)

/-- The depth of a forest of mobjects. -/
def forestDepth : List Mobject → Nat
  | [] => 0
  | .mk _ _ _ _ subs :: rest => max (1 + forestDepth subs) (forestDepth rest)

/-- Modelled from the claim's words, for comparison only: level-order
search — all positions of depth at most `d`, shallower levels first, first
success wins. -/
def bfsUpTo : Nat → List Mobject → Mobject → Mobject → Option (List Mobject)
  | 0, l, o, n => replaceAtDepth 0 l o n
  | d + 1, l, o, n =>
    match bfsUpTo d l o n with
    | some r => some r
    | none => replaceAtDepth (d + 1) l o n

/-- Modelled from the claim's words, for comparison only: replace the first
match in level order — all top-level entries before any children, then one
level of depth at a time. -/
def bfsReplaceList (l : List Mobject) (o n : Mobject) :
    Option (List Mobject) :=
  bfsUpTo (forestDepth l) l o n

/-- Example group holding the replace target two levels deep. -/
def exDeep : Mobject := .mk 10 [] false 0 [.mk 11 [] false 0 [ex1]]

/-- Example group holding the replace target one level deep. -/
def exShallow : Mobject := .mk 20 [] false 0 [ex1]

/-- **C3, counterexample.**  With `old` two levels deep inside the first
entry and one level deep inside the second, the code replaces the deep
occurrence (it exhausts the first entry's subtree before looking at the
second entry's children), whereas the claimed level-order visit — one level
of depth at a time across the whole list — would replace the shallow one:
the two results differ. -/
theorem claim3_counterexample :
    Scene.replace ⟨[exDeep, exShallow], [], [], false⟩ (some ex1)
        (some ex4) =
      .ok ⟨[.mk 10 [] false 0 [.mk 11 [] false 0 [ex4]], exShallow],
        [], [], false⟩ ∧
      bfsReplaceList [exDeep, exShallow] ex1 ex4 =
        some [exDeep, .mk 20 [] false 0 [ex4]] ∧
      ([.mk 10 [] false 0 [.mk 11 [] false 0 [ex4]], exShallow] :
          List Mobject) ≠ [exDeep, .mk 20 [] false 0 [ex4]] := by
  refine ⟨?_, ?_, ?_⟩
  · simp [Scene.replace, replace_in_list, replaceTop, replaceChildren,
      exDeep, exShallow, ex1, ex4, Mobject.mid]
  · simp [bfsReplaceList, forestDepth, bfsUpTo, replaceAtDepth, replaceTop,
      exDeep, exShallow, ex1, ex4, Mobject.mid]
  · simp [exDeep, exShallow, ex1, ex4]

/-- **C3** (amended).  A successful `replace` rewrites exactly one position
of the active forest: there is a path to a node carrying `old`'s identity
such that the result is the input with precisely that node overwritten by
`new` (everything else, siblings and enclosing parents included, is
unchanged).  The top level takes priority: when a top-level entry matches,
the replacement happens at a top-level index.  The search order below the
top level is depth-first across entries (each entry's subtree is exhausted
before the next entry's children), not one level of depth at a time. -/
theorem claim3_replace_first_match (s : Scene) (old_m new_m : Mobject)
    (l' : List Mobject)
    (h : replace_in_list s.mobjects old_m new_m = some l') :
    (∃ pth m', pth ≠ [] ∧ getPath s.mobjects pth = some m' ∧
      m'.mid = old_m.mid ∧ l' = setPath s.mobjects pth new_m) ∧
      ((∃ x ∈ s.mobjects, x.mid = old_m.mid) →
        ∃ i m', s.mobjects[i]? = some m' ∧ m'.mid = old_m.mid ∧
          l' = s.mobjects.set i new_m) ∧
      Scene.replace s (some old_m) (some new_m) =
        .ok { s with mobjects := l' } := by
  refine ⟨replace_in_list_some_path s.mobjects old_m new_m l' h, ?_, ?_⟩
  · intro ⟨x, hx, hxid⟩
    rw [replace_in_list] at h
    cases ht : replaceTop s.mobjects old_m new_m with
    | some l2 =>
      rw [ht] at h
      obtain rfl := Option.some_inj.mp h
      exact replaceTop_some s.mobjects old_m new_m l2 ht
    | none =>
      exact absurd hxid ((replaceTop_none_iff old_m new_m s.mobjects).mp ht
        x hx)
  · simp [Scene.replace, h]

/-- **C3, witness**: the spec's example — `old` nested two levels inside
`Group(Group(m1, m2))` — where the computed result keeps sibling `m2` and
both enclosing groups intact. -/
theorem claim3_witness :
    (∃ pth m', pth ≠ [] ∧
      getPath [Mobject.mk 10 [] false 0 [.mk 11 [] false 0 [ex1, ex2]]]
        pth = some m' ∧
      m'.mid = ex1.mid ∧
      [Mobject.mk 10 [] false 0 [.mk 11 [] false 0 [ex4, ex2]]] =
        setPath [Mobject.mk 10 [] false 0 [.mk 11 [] false 0 [ex1, ex2]]]
          pth ex4) ∧
      ((∃ x ∈ [Mobject.mk 10 [] false 0 [.mk 11 [] false 0 [ex1, ex2]]],
          x.mid = ex1.mid) →
        ∃ i m',
          [Mobject.mk 10 [] false 0 [.mk 11 [] false 0 [ex1, ex2]]][i]? =
            some m' ∧ m'.mid = ex1.mid ∧
          [Mobject.mk 10 [] false 0 [.mk 11 [] false 0 [ex4, ex2]]] =
            [Mobject.mk 10 [] false 0
              [.mk 11 [] false 0 [ex1, ex2]]].set i ex4) ∧
      Scene.replace
        ⟨[Mobject.mk 10 [] false 0 [.mk 11 [] false 0 [ex1, ex2]]],
          [], [], false⟩ (some ex1) (some ex4) =
        .ok ⟨[Mobject.mk 10 [] false 0 [.mk 11 [] false 0 [ex4, ex2]]],
          [], [], false⟩ :=
  claim3_replace_first_match
    ⟨[Mobject.mk 10 [] false 0 [.mk 11 [] false 0 [ex1, ex2]]],
      [], [], false⟩ ex1 ex4
    [Mobject.mk 10 [] false 0 [.mk 11 [] false 0 [ex4, ex2]]]
    (by simp [replace_in_list, replaceTop, replaceChildren, ex1, ex2, ex4,
      Mobject.mid])

end Claim3

section Claim8

/-- **C8.**  `replace` fails with `InvalidArgument` when either argument is
null, and — for non-null arguments — fails with `NotFound` exactly when the
old mobject's identity is absent from the families of both the active and
the foreground list; the scene value is only produced on success, so a
failing call changes neither list. -/
theorem claim8_replace_error_conditions (s : Scene) (o n : Option Mobject) :
    ((o = none ∨ n = none) → s.replace o n = .error .invalidArgument) ∧
      (∀ om nm : Mobject, o = some om → n = some nm →
        (s.replace o n = .error .notFound ↔
          om.mid ∉ mids (flat_family s.mobjects) ∧
            om.mid ∉ mids (flat_family s.foreground_mobjects))) := by
  constructor
  · intro h
    rcases h with rfl | rfl
    · rfl
    · cases o <;> rfl
  · intro om nm ho hn
    subst ho
    subst hn
    rw [Scene.replace]
    cases h1 : replace_in_list s.mobjects om nm with
    | some l =>
      have : om.mid ∈ mids (flat_family s.mobjects) := by
        by_contra hnot
        rw [← replace_in_list_none_iff s.mobjects om nm] at hnot
        simp [h1] at hnot
      simp [this]
    | none =>
      cases h2 : replace_in_list s.foreground_mobjects om nm with
      | some l =>
        have : om.mid ∈ mids (flat_family s.foreground_mobjects) := by
          by_contra hnot
          rw [← replace_in_list_none_iff s.foreground_mobjects om nm] at hnot
          simp [h2] at hnot
        simp [this]
      | none =>
        simp [(replace_in_list_none_iff s.mobjects om nm).mp h1,
          (replace_in_list_none_iff s.foreground_mobjects om nm).mp h2]

/-- **C8, witness**: a null argument is rejected as `InvalidArgument`; a
target absent from both lists is rejected as `NotFound`. -/
theorem claim8_witness :
    Scene.replace (⟨[ex1], [], [], false⟩ : Scene) none (some ex4) =
        .error .invalidArgument ∧
      Scene.replace (⟨[ex1], [], [], false⟩ : Scene) (some ex2) (some ex4) =
        .error .notFound :=
  ⟨(claim8_replace_error_conditions ⟨[ex1], [], [], false⟩ none
      (some ex4)).1 (.inl rfl),
    ((claim8_replace_error_conditions ⟨[ex1], [], [], false⟩ (some ex2)
      (some ex4)).2 ex2 ex4 rfl rfl).mpr
      ⟨by simp [mids, flat_family, Mobject.get_family,
          Mobject.get_family.familyOfList, ex1, ex2, Mobject.mid],
        by simp [mids, flat_family]⟩⟩

end Claim8

end WebManim
